import Mathlib

/-!
Verification of the multichannel audio front-end core (feature extraction,
WPE dereverberation, mask estimation, patch masking) against its design
specification.

The numeric modules are modelled over a general field `K` equipped with a
star operation (`star` plays the role of complex conjugation); the complex
numbers are one instance, and the rationals with the trivial star give an
executable instance used by concrete witnesses.  Batched tensors are
curried functions over `Fin`-indexed axes, in the axis order used by the
code: spectrograms are indexed by (batch, channel, subband, frame).
-/

namespace WPE

variable {K : Type} [Field K] [StarRing K] [DecidableEq K]

/-- Helper: the channel part of a flattened (channel × tap) column index. -/
lemma div_lt_of_fin {C L : ℕ} (j : Fin (C * L)) : (j : ℕ) / L < C := by
  rcases Nat.eq_zero_or_pos L with hL | hL
  · exact absurd j.isLt (by simp [hL])
  · exact (Nat.div_lt_iff_lt_mul hL).mpr (by
      have := j.isLt
      calc (j : ℕ) < C * L := this
        _ = L * C := Nat.mul_comm _ _
        _ ≤ C * L := by rw [Nat.mul_comm])

/-- Helper: the tap part of a flattened (channel × tap) column index. -/
lemma mod_lt_of_fin {C L : ℕ} (j : Fin (C * L)) : (j : ℕ) % L < L := by
  rcases Nat.eq_zero_or_pos L with hL | hL
  · exact absurd j.isLt (by simp [hL])
  · exact Nat.mod_lt _ hL

/-- Modelled from the spec: `WPEFilter.convtensor` (the module source is not in
the repository snapshot; only its tests are).  For filter length `L` and
prediction delay `D`, the convolutional tensor holds, at entry
`(b, c, f, n, k)`, the input value of channel `c` at frame
`n - D - (L - 1) + k` (tap axis in ascending time order, unfold style),
with frames before the start of the sequence zero-padded. -/
def convtensor {B C F N : ℕ} (X : Fin B → Fin C → Fin F → Fin N → K)
    (L D : ℕ) : Fin B → Fin C → Fin F → Fin N → Fin L → K :=
  fun b c f n k =>
    if _h : L - 1 - (k : ℕ) + D ≤ (n : ℕ) then
      X b c f ⟨(n : ℕ) - D - (L - 1 - (k : ℕ)),
        lt_of_le_of_lt (le_trans (Nat.sub_le _ _) (Nat.sub_le _ _)) n.isLt⟩
    else 0

/-- Modelled from the spec: `WPEFilter.permute_convtensor` (module source not
in the snapshot).  Fixed documented column permutation: the flattened column
`j = c * L + l` of the output is tap `L - 1 - l` of channel `c` of the
convolutional tensor, i.e. channels are laid out block-major and the tap
order within each channel block is reversed to descending time order
(newest first), matching the reference convolution-matrix layout. -/
def permute_convtensor {B C F N L : ℕ}
    (tX : Fin B → Fin C → Fin F → Fin N → Fin L → K) :
    Fin B → Fin F → Fin N → Fin (C * L) → K :=
  fun b f n j =>
    tX b ⟨(j : ℕ) / L, div_lt_of_fin j⟩ f n
      ⟨L - 1 - (j : ℕ) % L, by have := mod_lt_of_fin (C := C) (L := L) j; omega⟩

/-- Modelled from the spec: the reference construction `convmtx_mc_numpy`
(source not in the snapshot; described by the spec as stacking, at each
frame index `t`, the input values at frames `t - D - L + 1 … t - D` across
all channels, zero-padded before the start).  Column `j = c * L + l` of the
row for frame `n` holds the value of channel `c` at frame `n - D - l`. -/
def convmtx_mc {B C F N : ℕ} (X : Fin B → Fin C → Fin F → Fin N → K)
    (L D : ℕ) : Fin B → Fin F → Fin N → Fin (C * L) → K :=
  fun b f n j =>
    if _h : D + (j : ℕ) % L ≤ (n : ℕ) then
      X b ⟨(j : ℕ) / L, div_lt_of_fin j⟩ f
        ⟨(n : ℕ) - D - (j : ℕ) % L,
          lt_of_le_of_lt (le_trans (Nat.sub_le _ _) (Nat.sub_le _ _)) n.isLt⟩
    else 0

/-- Modelled from the spec: `WPEFilter.estimate_correlations` (module source
not in the snapshot).  Weighted correlation statistics, accumulated per
(batch, subband) over the frame axis, in the tensor shapes used by the
code: `Q` has shape (B, F, C, L, C, L) and `R` has shape (B, F, C, L, C),
with `Q[b,f,c1,k1,c2,k2] = Σ_n conj(tX[b,c1,f,n,k1]) · w[b,f,n] ·
tX[b,c2,f,n,k2]` and `R[b,f,c1,k1,c2] = Σ_n conj(tX[b,c1,f,n,k1]) ·
w[b,f,n] · X[b,c2,f,n]`. -/
def estimate_correlations {B C F N L : ℕ}
    (X : Fin B → Fin C → Fin F → Fin N → K)
    (w : Fin B → Fin F → Fin N → K)
    (tX : Fin B → Fin C → Fin F → Fin N → Fin L → K) :
    (Fin B → Fin F → Fin C → Fin L → Fin C → Fin L → K) ×
      (Fin B → Fin F → Fin C → Fin L → Fin C → K) :=
  (fun b f c1 k1 c2 k2 => ∑ n : Fin N, star (tX b c1 f n k1) * w b f n * tX b c2 f n k2,
   fun b f c1 k1 c2 => ∑ n : Fin N, star (tX b c1 f n k1) * w b f n * X b c2 f n)

/-- Embedded from the test source (`test_wpe_filter`): the convolutional
tensor with channels moved to the back and (channel, tap) flattened into the
matrix column index, i.e. `tilde_X.permute(0, 2, 3, 1, 4).reshape(B, F, N,
C*L)`; the flattened column `(c, k)` stands for index `c·L + k`. -/
def flatten_conv {B C F N L : ℕ}
    (tX : Fin B → Fin C → Fin F → Fin N → Fin L → K) :
    Fin B → Fin F → Matrix (Fin N) (Fin C × Fin L) K :=
  fun b f => Matrix.of fun n p => tX b p.1 f n p.2

/-- Embedded from the test source: the input with channels moved to the back,
`X.permute(0, 2, 3, 1)`, viewed per (batch, subband) as an N × C matrix. -/
def X_perm {B C F N : ℕ} (X : Fin B → Fin C → Fin F → Fin N → K) :
    Fin B → Fin F → Matrix (Fin N) (Fin C) K :=
  fun b f => Matrix.of fun n c => X b c f n

/-- Embedded from the test source: the dense reference correlation matrix
`Q_golden = matmul(tilde_X_golden^H, weight[..., None] * tilde_X_golden)`. -/
def Q_golden {B C F N L : ℕ}
    (w : Fin B → Fin F → Fin N → K)
    (tX : Fin B → Fin C → Fin F → Fin N → Fin L → K) :
    Fin B → Fin F → Matrix (Fin C × Fin L) (Fin C × Fin L) K :=
  fun b f =>
    (flatten_conv tX b f).conjTranspose
      * (Matrix.of fun n p => w b f n * flatten_conv tX b f n p)

/-- Embedded from the test source: the dense reference cross-correlation
`R_golden = matmul(tilde_X_golden^H, weight[..., None] * X_golden)`. -/
def R_golden {B C F N L : ℕ}
    (X : Fin B → Fin C → Fin F → Fin N → K)
    (w : Fin B → Fin F → Fin N → K)
    (tX : Fin B → Fin C → Fin F → Fin N → Fin L → K) :
    Fin B → Fin F → Matrix (Fin C × Fin L) (Fin C) K :=
  fun b f =>
    (flatten_conv tX b f).conjTranspose
      * (Matrix.of fun n c => w b f n * X_perm X b f n c)

/-- The unique solution of the linear system `A · G = Bm` for invertible `A`,
written with the adjugate so that it is executable:
`(det A)⁻¹ • (adjugate A * Bm)`. -/
def solveLin {m n : Type} [Fintype m] [DecidableEq m] [Fintype n]
    (A : Matrix m m K) (Bm : Matrix m n K) : Matrix m n K :=
  A.det⁻¹ • (A.adjugate * Bm)

/-- `solveLin` really solves the system when the matrix is nonsingular. -/
lemma mul_solveLin {m n : Type} [Fintype m] [DecidableEq m] [Fintype n]
    (A : Matrix m m K) (Bm : Matrix m n K) (h : A.det ≠ 0) :
    A * solveLin A Bm = Bm := by
  unfold solveLin
  rw [Matrix.mul_smul, ← Matrix.mul_assoc, Matrix.mul_adjugate, Matrix.smul_mul,
    Matrix.one_mul, inv_smul_smul₀ h]

/-- The tensor-shaped correlation matrix `Q` (B, F, C, L, C, L) flattened per
(batch, subband) into a (C·L) × (C·L) matrix, as the test does with
`Q_uut.flatten(start_dim=-2, end_dim=-1).flatten(start_dim=-3, end_dim=-2)`. -/
def Qmat {B C F L : ℕ}
    (Q : Fin B → Fin F → Fin C → Fin L → Fin C → Fin L → K) :
    Fin B → Fin F → Matrix (Fin C × Fin L) (Fin C × Fin L) K :=
  fun b f => Matrix.of fun p q => Q b f p.1 p.2 q.1 q.2

/-- The tensor-shaped cross-correlation `R` (B, F, C, L, C) flattened per
(batch, subband) into a (C·L) × C matrix. -/
def Rmat {B C F L : ℕ}
    (R : Fin B → Fin F → Fin C → Fin L → Fin C → K) :
    Fin B → Fin F → Matrix (Fin C × Fin L) (Fin C) K :=
  fun b f => Matrix.of fun p c => R b f p.1 p.2 c

/-- The tensor-shaped filter `G` (B, C, F, C, L) flattened per (batch,
subband) with the output channel moved to the back, as the test does with
`G_uut.reshape(B, C, F, -1).permute(0, 2, 3, 1)`. -/
def Gmat {B C F L : ℕ}
    (G : Fin B → Fin C → Fin F → Fin C → Fin L → K) :
    Fin B → Fin F → Matrix (Fin C × Fin L) (Fin C) K :=
  fun b f => Matrix.of fun p c => G b c f p.1 p.2

/-- Modelled from the spec: `WPEFilter.estimate_filter` with `diag_reg=None`
(module source not in the snapshot).  Solves `Q · G = R` per (batch,
subband) on the flattened correlation matrices and returns the filter in the
tensor shape (B, C, F, C, L), where the last two axes flatten to the
delayed-history index. -/
def estimate_filter {B C F L : ℕ}
    (Q : Fin B → Fin F → Fin C → Fin L → Fin C → Fin L → K)
    (R : Fin B → Fin F → Fin C → Fin L → Fin C → K) :
    Fin B → Fin C → Fin F → Fin C → Fin L → K :=
  fun b c2 f c1 k1 => solveLin (Qmat Q b f) (Rmat R b f) (c1, k1) c2

/-- Modelled from the spec: `WPEFilter.apply_filter` (module source not in
the snapshot).  The predicted reverberant component `U = tilde_X · G` per
channel: `U[b,c,f,n] = Σ_{c',k} tX[b,c',f,n,k] · G[b,c,f,c',k]`. -/
def apply_filter {B C F N L : ℕ}
    (G : Fin B → Fin C → Fin F → Fin C → Fin L → K)
    (tX : Fin B → Fin C → Fin F → Fin N → Fin L → K) :
    Fin B → Fin C → Fin F → Fin N → K :=
  fun b c f n => ∑ p : Fin C × Fin L, tX b p.1 f n p.2 * G b c f p.1 p.2

/-- Concrete all-ones input used to witness the correlation/filter theorem. -/
def exX : Fin 1 → Fin 1 → Fin 1 → Fin 1 → ℚ := fun _ _ _ _ => 1

/-- Concrete all-ones weight used to witness the correlation/filter theorem. -/
def exW : Fin 1 → Fin 1 → Fin 1 → ℚ := fun _ _ _ => 1

/-- Concrete all-ones convolutional tensor used to witness the
correlation/filter theorem. -/
def exTX : Fin 1 → Fin 1 → Fin 1 → Fin 1 → Fin 1 → ℚ := fun _ _ _ _ _ => 1

end WPE

/-- C2: for every complex input, every filter length and prediction delay,
`convtensor` followed by the fixed column permutation `permute_convtensor`
equals the direct per-(batch, subband) construction of delayed channel
histories (`convmtx_mc`), with frames before the start zero-padded. -/
theorem wpe_convtensor_permuted_eq_convmtx {K : Type} [Field K] [StarRing K]
    [DecidableEq K] {B C F N : ℕ} (X : Fin B → Fin C → Fin F → Fin N → K)
    (L D : ℕ) :
    WPE.permute_convtensor (WPE.convtensor X L D) = WPE.convmtx_mc X L D := by
  funext b f n j
  have hm : (j : ℕ) % L < L := WPE.mod_lt_of_fin j
  unfold WPE.permute_convtensor WPE.convtensor WPE.convmtx_mc
  have h1 : L - 1 - (L - 1 - (j : ℕ) % L) = (j : ℕ) % L := by omega
  by_cases hc : D + (j : ℕ) % L ≤ (n : ℕ)
  · rw [dif_pos (show L - 1 - ((⟨L - 1 - (j : ℕ) % L, by omega⟩ : Fin L) : ℕ) + D ≤ (n : ℕ) by
      simp only [Fin.val_mk]; omega), dif_pos hc]
    congr 1
    exact Fin.ext (by simp only [Fin.val_mk]; omega)
  · rw [dif_neg (by simp only [Fin.val_mk]; omega), dif_neg hc]

/-- C1: for every batched input `X`, every weight tensor `w`, and every
convolutional tensor, with `diag_reg=None` and nonsingular correlation
matrices: `estimate_correlations` flattens (over the channel and tap axes)
to the dense formulas `Q = X̃ᴴ diag(w) X̃` and `R = X̃ᴴ diag(w) X` per
(batch, subband); `estimate_filter` flattens to the solution `G` of
`Q · G = R`; and `apply_filter` equals `X̃ · G`.  Exact equality in exact
arithmetic subsumes the 1e-6 absolute tolerance, and holds for every
weight, in particular every non-negative one. -/
theorem wpe_filter_matches_dense {K : Type} [Field K] [StarRing K]
    [DecidableEq K] {B C F N L : ℕ}
    (X : Fin B → Fin C → Fin F → Fin N → K)
    (w : Fin B → Fin F → Fin N → K)
    (tX : Fin B → Fin C → Fin F → Fin N → Fin L → K)
    (hdet : ∀ b f, (WPE.Q_golden w tX b f).det ≠ 0) :
    (∀ b f, WPE.Qmat (WPE.estimate_correlations X w tX).1 b f
        = WPE.Q_golden w tX b f)
    ∧ (∀ b f, WPE.Rmat (WPE.estimate_correlations X w tX).2 b f
        = WPE.R_golden X w tX b f)
    ∧ (∀ b f, WPE.Gmat (WPE.estimate_filter (WPE.estimate_correlations X w tX).1
            (WPE.estimate_correlations X w tX).2) b f
        = WPE.solveLin (WPE.Q_golden w tX b f) (WPE.R_golden X w tX b f))
    ∧ (∀ b f, WPE.Q_golden w tX b f
          * WPE.Gmat (WPE.estimate_filter (WPE.estimate_correlations X w tX).1
              (WPE.estimate_correlations X w tX).2) b f
        = WPE.R_golden X w tX b f)
    ∧ (∀ b c f n, WPE.apply_filter
          (WPE.estimate_filter (WPE.estimate_correlations X w tX).1
            (WPE.estimate_correlations X w tX).2) tX b c f n
        = (WPE.flatten_conv tX b f
            * WPE.Gmat (WPE.estimate_filter (WPE.estimate_correlations X w tX).1
                (WPE.estimate_correlations X w tX).2) b f) n c) := by
  have hQ : ∀ b f, WPE.Qmat (WPE.estimate_correlations X w tX).1 b f
      = WPE.Q_golden w tX b f := by
    intro b f
    ext p q
    simp only [WPE.Qmat, WPE.Q_golden, WPE.estimate_correlations, WPE.flatten_conv,
      Matrix.of_apply, Matrix.mul_apply, Matrix.conjTranspose_apply]
    refine Finset.sum_congr rfl fun n _ => ?_
    ring
  have hR : ∀ b f, WPE.Rmat (WPE.estimate_correlations X w tX).2 b f
      = WPE.R_golden X w tX b f := by
    intro b f
    ext p c
    simp only [WPE.Rmat, WPE.R_golden, WPE.estimate_correlations, WPE.flatten_conv,
      WPE.X_perm, Matrix.of_apply, Matrix.mul_apply, Matrix.conjTranspose_apply]
    refine Finset.sum_congr rfl fun n _ => ?_
    ring
  have hG : ∀ b f, WPE.Gmat (WPE.estimate_filter (WPE.estimate_correlations X w tX).1
        (WPE.estimate_correlations X w tX).2) b f
      = WPE.solveLin (WPE.Q_golden w tX b f) (WPE.R_golden X w tX b f) := by
    intro b f
    have : WPE.Gmat (WPE.estimate_filter (WPE.estimate_correlations X w tX).1
          (WPE.estimate_correlations X w tX).2) b f
        = WPE.solveLin (WPE.Qmat (WPE.estimate_correlations X w tX).1 b f)
            (WPE.Rmat (WPE.estimate_correlations X w tX).2 b f) := by
      ext p c
      simp only [WPE.Gmat, WPE.estimate_filter, Matrix.of_apply]
    rw [this, hQ b f, hR b f]
  refine ⟨hQ, hR, hG, fun b f => ?_, fun b c f n => ?_⟩
  · rw [hG b f]
    exact WPE.mul_solveLin _ _ (hdet b f)
  · simp only [WPE.apply_filter, WPE.flatten_conv, WPE.Gmat, Matrix.mul_apply,
      Matrix.of_apply]

/-- Witness for C1 at a concrete all-ones input over ℚ with all dimensions
equal to one: the nonsingularity hypothesis holds and the dense-formula
equalities follow. -/
theorem wpe_filter_matches_dense_witness :
    (∀ b f, (WPE.Q_golden WPE.exW WPE.exTX b f).det ≠ 0)
    ∧ ((∀ b f, WPE.Qmat (WPE.estimate_correlations WPE.exX WPE.exW WPE.exTX).1 b f
        = WPE.Q_golden WPE.exW WPE.exTX b f)
    ∧ (∀ b f, WPE.Rmat (WPE.estimate_correlations WPE.exX WPE.exW WPE.exTX).2 b f
        = WPE.R_golden WPE.exX WPE.exW WPE.exTX b f)
    ∧ (∀ b f, WPE.Gmat (WPE.estimate_filter
            (WPE.estimate_correlations WPE.exX WPE.exW WPE.exTX).1
            (WPE.estimate_correlations WPE.exX WPE.exW WPE.exTX).2) b f
        = WPE.solveLin (WPE.Q_golden WPE.exW WPE.exTX b f)
            (WPE.R_golden WPE.exX WPE.exW WPE.exTX b f))
    ∧ (∀ b f, WPE.Q_golden WPE.exW WPE.exTX b f
          * WPE.Gmat (WPE.estimate_filter
              (WPE.estimate_correlations WPE.exX WPE.exW WPE.exTX).1
              (WPE.estimate_correlations WPE.exX WPE.exW WPE.exTX).2) b f
        = WPE.R_golden WPE.exX WPE.exW WPE.exTX b f)
    ∧ (∀ b c f n, WPE.apply_filter
          (WPE.estimate_filter (WPE.estimate_correlations WPE.exX WPE.exW WPE.exTX).1
            (WPE.estimate_correlations WPE.exX WPE.exW WPE.exTX).2) WPE.exTX b c f n
        = (WPE.flatten_conv WPE.exTX b f
            * WPE.Gmat (WPE.estimate_filter
                (WPE.estimate_correlations WPE.exX WPE.exW WPE.exTX).1
                (WPE.estimate_correlations WPE.exX WPE.exW WPE.exTX).2) b f) n c)) := by
  have hdet : ∀ b f : Fin 1, (WPE.Q_golden WPE.exW WPE.exTX b f).det ≠ 0 := by
    intro b f
    have h1 : (WPE.Q_golden WPE.exW WPE.exTX b f).det
        = WPE.Q_golden WPE.exW WPE.exTX b f (0, 0) (0, 0) :=
      Matrix.det_eq_elem_of_subsingleton _ _
    rw [h1]
    simp [WPE.Q_golden, WPE.flatten_conv, WPE.exW, WPE.exTX, Matrix.mul_apply,
      Matrix.conjTranspose_apply]
  exact ⟨hdet, wpe_filter_matches_dense WPE.exX WPE.exW WPE.exTX hdet⟩

namespace S2MF

/-- Configuration errors of the feature extractor, as an explicit error type:
`unsupported` stands for the NotImplementedError/ValueError raised on an
unknown enumerated option, `missing` for querying a property whose
prerequisite configuration was never provided. -/
inductive ConfigError
  | unsupported (what : String)
  | missing (what : String)
deriving DecidableEq

/-- Modelled from the spec: the construction-time configuration of
`SpectrogramToMultichannelFeatures` (module source not in the snapshot). -/
structure Config where
  num_subbands : ℕ
  num_input_channels : Option ℕ
  mag_reduction : Option String
  mag_power : Option ℝ
  mag_normalization : Option String
  use_ipd : Bool
  ipd_normalization : Option String
  eps : ℝ

/-- A normalization option is supported when it is absent, `mean`, or
`mean_var`. -/
def supported_norm (s : Option String) : Bool :=
  match s with
  | none => true
  | some s => s == "mean" || s == "mean_var"

/-- A magnitude-reduction option is supported when it is absent, `rms`,
`mean_abs`, or `abs_mean`. -/
def supported_reduction (s : Option String) : Bool :=
  match s with
  | none => true
  | some s => s == "rms" || s == "mean_abs" || s == "abs_mean"

/-- Modelled from the spec: construction of the feature extractor.  The two
normalization options are validated eagerly (fail fast, before any forward
call); the magnitude-reduction option is not validated here but only at
call time. -/
def make (cfg : Config) : Except ConfigError Config :=
  if supported_norm cfg.mag_normalization then
    if supported_norm cfg.ipd_normalization then .ok cfg
    else .error (.unsupported "ipd_normalization")
  else .error (.unsupported "mag_normalization")

/-- Modelled from the spec: the `num_channels` property.  When the input
channel count was never configured it fails with a missing-configuration
error; when a channel-collapsing magnitude reduction is set and IPD is
disabled it reports one channel; otherwise it reports the configured
count. -/
def num_channels (cfg : Config) : Except ConfigError ℕ :=
  match cfg.num_input_channels with
  | none => .error (.missing "num_input_channels")
  | some c => if cfg.mag_reduction.isSome && !cfg.use_ipd then .ok 1 else .ok c

/-- Valid length per batch element: an absent length argument means every
sequence is fully valid (all `N` frames). -/
def lenOf (N : ℕ) {B : ℕ} : Option (Fin B → ℕ) → Fin B → ℕ
  | none => fun _ => N
  | some l => l

/-- Mean over the (reduced, ℕ-indexed) channel axis and the valid frames,
per (batch, subband). -/
noncomputable def meanCF {B F N : ℕ} (Cr : ℕ) (len : Fin B → ℕ)
    (x : Fin B → ℕ → Fin F → Fin N → ℝ) (b : Fin B) (f : Fin F) : ℝ :=
  (∑ c ∈ Finset.range Cr, ∑ n ∈ Finset.univ.filter fun n : Fin N => (n : ℕ) < len b,
      x b c f n) / (Cr * len b)

/-- Mean over the full channel axis and the valid frames, per (batch,
subband). -/
noncomputable def meanFin {B C F N : ℕ} (len : Fin B → ℕ)
    (x : Fin B → Fin C → Fin F → Fin N → ℝ) (b : Fin B) (f : Fin F) : ℝ :=
  (∑ c : Fin C, ∑ n ∈ Finset.univ.filter fun n : Fin N => (n : ℕ) < len b,
      x b c f n) / (C * len b)

/-- Modelled from the spec: magnitude reduction.  Channels are collapsed by
root-mean-square, mean of magnitudes, or magnitude of the channel mean; an
absent option keeps the per-channel magnitudes.  The reduced channel axis
is returned as a count together with ℕ-indexed data that is zero outside
the valid channel range.  An unsupported option yields a placeholder that
`forward` never exposes, since it raises before using it. -/
noncomputable def magnitude (red : Option String) {B C F N : ℕ}
    (X : Fin B → Fin C → Fin F → Fin N → ℂ) :
    ℕ × (Fin B → ℕ → Fin F → Fin N → ℝ) :=
  match red with
  | none => (C, fun b c f n => if h : c < C then Complex.abs (X b ⟨c, h⟩ f n) else 0)
  | some "rms" =>
      (1, fun b c f n => if c < 1 then
          Real.sqrt ((∑ c' : Fin C, Complex.abs (X b c' f n) ^ 2) / C) else 0)
  | some "mean_abs" =>
      (1, fun b c f n => if c < 1 then
          (∑ c' : Fin C, Complex.abs (X b c' f n)) / C else 0)
  | some "abs_mean" =>
      (1, fun b c f n => if c < 1 then
          Complex.abs ((∑ c' : Fin C, X b c' f n) / (C : ℂ)) else 0)
  | some _ => (0, fun _ _ _ _ => 0)

/-- Modelled from the spec: optional elementwise power applied after the
magnitude reduction. -/
noncomputable def applyPower (p : Option ℝ) {B F N : ℕ}
    (m : Fin B → ℕ → Fin F → Fin N → ℝ) : Fin B → ℕ → Fin F → Fin N → ℝ :=
  match p with
  | none => m
  | some p => fun b c f n => m b c f n ^ p

/-- Modelled from the spec: optional magnitude normalization, subtracting the
per-(batch, subband) mean over (channel, valid frames), and for `mean_var`
additionally dividing by the root-mean-square over the same axes. -/
noncomputable def applyNorm (norm : Option String) {B F N : ℕ} (Cr : ℕ)
    (len : Fin B → ℕ) (m : Fin B → ℕ → Fin F → Fin N → ℝ) :
    Fin B → ℕ → Fin F → Fin N → ℝ :=
  match norm with
  | some "mean" => fun b c f n => m b c f n - meanCF Cr len m b f
  | some "mean_var" => fun b c f n =>
      (m b c f n - meanCF Cr len m b f)
        / Real.sqrt (meanCF Cr len
            (fun b' c' f' n' => (m b' c' f' n' - meanCF Cr len m b' f') ^ 2) b f)
  | _ => m

/-- Modelled from the spec: the magnitude branch of the feature extractor,
reduction followed by the optional power and the optional normalization. -/
noncomputable def magFeature (red : Option String) (power : Option ℝ)
    (norm : Option String) {B C F N : ℕ}
    (X : Fin B → Fin C → Fin F → Fin N → ℂ) (len : Fin B → ℕ) :
    ℕ × (Fin B → ℕ → Fin F → Fin N → ℝ) :=
  ((magnitude red X).1,
    applyNorm norm (magnitude red X).1 len (applyPower power (magnitude red X).2))

/-- Wrap an angle into the interval (-π, π] by subtracting the unique integer
multiple of 2π that lands there. -/
noncomputable def wrapPi (x : ℝ) : ℝ :=
  x - 2 * Real.pi * ⌈(x - Real.pi) / (2 * Real.pi)⌉

/-- Modelled from the spec: the raw inter-channel phase difference,
angle(spectrogram) − angle(mean-across-channels spectrogram), wrapped into
(-π, π]. -/
noncomputable def ipdRaw {B C F N : ℕ}
    (X : Fin B → Fin C → Fin F → Fin N → ℂ) : Fin B → Fin C → Fin F → Fin N → ℝ :=
  fun b c f n =>
    wrapPi (Complex.arg (X b c f n) - Complex.arg ((∑ c' : Fin C, X b c' f n) / (C : ℂ)))

/-- Modelled from the spec: the IPD branch, the raw wrapped phase difference
optionally normalized like the magnitude, with the variance normalization
using a division-floor epsilon. -/
noncomputable def ipdFeature (norm : Option String) (eps : ℝ) {B C F N : ℕ}
    (X : Fin B → Fin C → Fin F → Fin N → ℂ) (len : Fin B → ℕ) :
    Fin B → Fin C → Fin F → Fin N → ℝ :=
  match norm with
  | some "mean" => fun b c f n => ipdRaw X b c f n - meanFin len (ipdRaw X) b f
  | some "mean_var" => fun b c f n =>
      (ipdRaw X b c f n - meanFin len (ipdRaw X) b f)
        / Real.sqrt (max (meanFin len
            (fun b' c' f' n' => (ipdRaw X b' c' f' n' - meanFin len (ipdRaw X) b' f') ^ 2)
            b f) eps)
  | _ => ipdRaw X

/-- The feature tensor produced by one forward call: the (possibly reduced)
magnitude channel count with the magnitude data, and the IPD data when
enabled. -/
structure FeatOut (B C F N : ℕ) where
  magCh : ℕ
  mag : Fin B → ℕ → Fin F → Fin N → ℝ
  ipd : Option (Fin B → Fin C → Fin F → Fin N → ℝ)

/-- Modelled from the spec: the forward call of the feature extractor.  The
magnitude-reduction option is validated here, at call time; an absent input
length means fully valid sequences. -/
noncomputable def forward (cfg : Config) {B C F N : ℕ}
    (X : Fin B → Fin C → Fin F → Fin N → ℂ) (len : Option (Fin B → ℕ)) :
    Except ConfigError (FeatOut B C F N) :=
  if supported_reduction cfg.mag_reduction then
    .ok ⟨(magFeature cfg.mag_reduction cfg.mag_power cfg.mag_normalization X (lenOf N len)).1,
         (magFeature cfg.mag_reduction cfg.mag_power cfg.mag_normalization X (lenOf N len)).2,
         if cfg.use_ipd then
           some (ipdFeature cfg.ipd_normalization cfg.eps X (lenOf N len))
         else none⟩
  else .error (.unsupported "mag_reduction")

/-- Embedded from the test source (`test_magnitude`): the golden magnitude
computation, `np.abs` / RMS / mean-abs / abs-mean per `mag_reduction`,
then the optional elementwise power, then the optional normalization with
means taken over the channel and full frame axes. -/
noncomputable def magGolden (red : Option String) (power : Option ℝ)
    (norm : Option String) {B C F N : ℕ}
    (X : Fin B → Fin C → Fin F → Fin N → ℂ) :
    ℕ × (Fin B → ℕ → Fin F → Fin N → ℝ) :=
  let base : ℕ × (Fin B → ℕ → Fin F → Fin N → ℝ) :=
    match red with
    | none => (C, fun b c f n => if h : c < C then Complex.abs (X b ⟨c, h⟩ f n) else 0)
    | some "rms" =>
        (1, fun b c f n => if c < 1 then
            Real.sqrt ((∑ c' : Fin C, Complex.abs (X b c' f n) ^ 2) / C) else 0)
    | some "mean_abs" =>
        (1, fun b c f n => if c < 1 then
            (∑ c' : Fin C, Complex.abs (X b c' f n)) / C else 0)
    | some "abs_mean" =>
        (1, fun b c f n => if c < 1 then
            Complex.abs ((∑ c' : Fin C, X b c' f n) / (C : ℂ)) else 0)
    | some _ => (0, fun _ _ _ _ => 0)
  let pw : Fin B → ℕ → Fin F → Fin N → ℝ :=
    match power with
    | none => base.2
    | some p => fun b c f n => base.2 b c f n ^ p
  let gmean : (Fin B → ℕ → Fin F → Fin N → ℝ) → Fin B → Fin F → ℝ :=
    fun x b f => (∑ c ∈ Finset.range base.1, ∑ n : Fin N, x b c f n) / (base.1 * N)
  match norm with
  | some "mean" => (base.1, fun b c f n => pw b c f n - gmean pw b f)
  | some "mean_var" =>
      (base.1, fun b c f n =>
        (pw b c f n - gmean pw b f)
          / Real.sqrt (gmean (fun b' c' f' n' => (pw b' c' f' n' - gmean pw b' f') ^ 2) b f))
  | _ => (base.1, pw)

end S2MF

/-- C9: querying `num_channels` when the input channel count was never
configured fails with a missing-configuration error; with a configured
channel count and no magnitude reduction it reports the configured count;
with a channel-collapsing magnitude reduction it reports 1 when IPD is
disabled and the configured count when IPD is enabled. -/
theorem s2mf_num_channels_property (F c : ℕ) (r : String) (red : Option String)
    (pw : Option ℝ) (mn : Option String) (u : Bool) (ipn : Option String) (e : ℝ) :
    S2MF.num_channels ⟨F, none, red, pw, mn, u, ipn, e⟩
        = .error (.missing "num_input_channels")
    ∧ S2MF.num_channels ⟨F, some c, none, pw, mn, u, ipn, e⟩ = .ok c
    ∧ S2MF.num_channels ⟨F, some c, some r, pw, mn, false, ipn, e⟩ = .ok 1
    ∧ S2MF.num_channels ⟨F, some c, some r, pw, mn, true, ipn, e⟩ = .ok c := by
  refine ⟨rfl, ?_, rfl, rfl⟩
  simp [S2MF.num_channels]

/-- C10: the feature extractor's forward accepts an absent input length, and
for a full-length input length tensor the output is identical to the output
with the length argument absent. -/
theorem s2mf_forward_full_length_invariant (cfg : S2MF.Config) {B C F N : ℕ}
    (X : Fin B → Fin C → Fin F → Fin N → ℂ) :
    S2MF.forward cfg X (some fun _ => N) = S2MF.forward cfg X none := rfl

/-- C8: an unsupported `mag_normalization` or `ipd_normalization` fails at
construction time, before any forward call; an unsupported `mag_reduction`
is accepted at construction and only fails when forward is called. -/
theorem s2mf_config_validation (cfg : S2MF.Config) {B C F N : ℕ}
    (X : Fin B → Fin C → Fin F → Fin N → ℂ) (len : Option (Fin B → ℕ)) :
    (S2MF.supported_norm cfg.mag_normalization = false →
      S2MF.make cfg = .error (.unsupported "mag_normalization"))
    ∧ (S2MF.supported_norm cfg.mag_normalization = true →
        S2MF.supported_norm cfg.ipd_normalization = false →
      S2MF.make cfg = .error (.unsupported "ipd_normalization"))
    ∧ (S2MF.supported_norm cfg.mag_normalization = true →
        S2MF.supported_norm cfg.ipd_normalization = true →
      S2MF.make cfg = .ok cfg)
    ∧ (S2MF.supported_reduction cfg.mag_reduction = false →
      S2MF.forward cfg X len = .error (.unsupported "mag_reduction")) := by
  refine ⟨fun h1 => ?_, fun h1 h2 => ?_, fun h1 h2 => ?_, fun h3 => ?_⟩
  · simp [S2MF.make, h1]
  · simp [S2MF.make, h1, h2]
  · simp [S2MF.make, h1, h2]
  · simp [S2MF.forward, h3]

namespace S2MF

/-- Concrete zero spectrogram with all dimensions one, used by witnesses of
the feature-extractor theorems. -/
noncomputable def exX : Fin 1 → Fin 1 → Fin 1 → Fin 1 → ℂ := fun _ _ _ _ => 0

/-- Concrete configuration with an unsupported magnitude normalization. -/
noncomputable def exCfgBadNorm : Config := ⟨32, none, none, none, some "not-implemented", false, none, 0⟩

/-- Concrete configuration with an unsupported IPD normalization. -/
noncomputable def exCfgBadIpd : Config := ⟨32, none, none, none, none, true, some "not-implemented", 0⟩

/-- Concrete configuration with an unsupported magnitude reduction and
supported normalizations. -/
noncomputable def exCfgBadRed : Config := ⟨32, none, some "not-implemented", none, none, false, none, 0⟩

end S2MF

/-- Witness for C8 at concrete configurations: an unsupported
`mag_normalization` and an unsupported `ipd_normalization` each fail at
construction, while an unsupported `mag_reduction` is accepted at
construction and fails at the forward call. -/
theorem s2mf_config_validation_witness :
    S2MF.supported_norm S2MF.exCfgBadNorm.mag_normalization = false
    ∧ S2MF.make S2MF.exCfgBadNorm = .error (.unsupported "mag_normalization")
    ∧ S2MF.make S2MF.exCfgBadIpd = .error (.unsupported "ipd_normalization")
    ∧ S2MF.make S2MF.exCfgBadRed = .ok S2MF.exCfgBadRed
    ∧ S2MF.forward S2MF.exCfgBadRed S2MF.exX none
        = .error (.unsupported "mag_reduction") :=
  ⟨by decide,
   (s2mf_config_validation S2MF.exCfgBadNorm S2MF.exX none).1 (by decide),
   (s2mf_config_validation S2MF.exCfgBadIpd S2MF.exX none).2.1 (by decide) (by decide),
   (s2mf_config_validation S2MF.exCfgBadRed S2MF.exX none).2.2.1 (by decide) (by decide),
   (s2mf_config_validation S2MF.exCfgBadRed S2MF.exX none).2.2.2 (by decide)⟩

/-- The wrapped angle always lands in the half-open interval (-π, π]. -/
lemma wrapPi_mem_Ioc (x : ℝ) :
    -Real.pi < S2MF.wrapPi x ∧ S2MF.wrapPi x ≤ Real.pi := by
  have hpi : (0 : ℝ) < Real.pi := Real.pi_pos
  have h2 : (0 : ℝ) < 2 * Real.pi := by linarith
  have hle : (x - Real.pi) / (2 * Real.pi)
      ≤ (⌈(x - Real.pi) / (2 * Real.pi)⌉ : ℝ) := Int.le_ceil _
  have hlt : ((⌈(x - Real.pi) / (2 * Real.pi)⌉ : ℤ) : ℝ)
      < (x - Real.pi) / (2 * Real.pi) + 1 := Int.ceil_lt_add_one _
  have hcan : (x - Real.pi) / (2 * Real.pi) * (2 * Real.pi) = x - Real.pi :=
    div_mul_cancel₀ _ (ne_of_gt h2)
  have hup : x - Real.pi ≤ (⌈(x - Real.pi) / (2 * Real.pi)⌉ : ℝ) * (2 * Real.pi) := by
    have := mul_le_mul_of_nonneg_right hle (le_of_lt h2)
    rwa [hcan] at this
  have hlo : ((⌈(x - Real.pi) / (2 * Real.pi)⌉ : ℤ) : ℝ) * (2 * Real.pi)
      < x - Real.pi + 2 * Real.pi := by
    have := mul_lt_mul_of_pos_right hlt h2
    rwa [add_mul, one_mul, hcan] at this
  constructor
  · unfold S2MF.wrapPi
    nlinarith [hlo]
  · unfold S2MF.wrapPi
    nlinarith [hup]

/-- C5: the IPD feature equals the angle of the spectrogram minus the angle
of its mean across channels, wrapped into (-π, π]; and with `mean`
normalization the IPD has zero mean over the channel and frame axes. -/
theorem s2mf_ipd_properties (B C F N : ℕ)
    (X : Fin B → Fin (C + 1) → Fin F → Fin (N + 1) → ℂ) (eps : ℝ) :
    (∀ b c f n, S2MF.ipdFeature none eps X (fun _ => N + 1) b c f n
        = S2MF.wrapPi (Complex.arg (X b c f n)
            - Complex.arg ((∑ c' : Fin (C + 1), X b c' f n) / ((C + 1 : ℕ) : ℂ)))
      ∧ -Real.pi < S2MF.ipdFeature none eps X (fun _ => N + 1) b c f n
      ∧ S2MF.ipdFeature none eps X (fun _ => N + 1) b c f n ≤ Real.pi)
    ∧ (∀ b f, S2MF.meanFin (fun _ => N + 1)
          (S2MF.ipdFeature (some "mean") eps X (fun _ => N + 1)) b f = 0) := by
  have hfil : (Finset.univ.filter fun n : Fin (N + 1) => (n : ℕ) < N + 1)
      = (Finset.univ : Finset (Fin (N + 1))) := by
    ext n
    simp [n.isLt]
  constructor
  · intro b c f n
    refine ⟨rfl, ?_, ?_⟩
    · exact (wrapPi_mem_Ioc _).1
    · exact (wrapPi_mem_Ioc _).2
  · intro b f
    simp only [S2MF.meanFin, S2MF.ipdFeature, hfil, Finset.sum_sub_distrib,
      Finset.sum_const, Finset.card_univ, Fintype.card_fin, smul_eq_mul]
    have hd : (((C + 1 : ℕ) : ℝ) * ((N + 1 : ℕ) : ℝ)) ≠ 0 := by positivity
    field_simp
    ring

/-- C3: for every supported magnitude reduction and every supported
normalization, the magnitude branch of the feature extractor on fully
valid input equals the golden reference computation embedded from the
test; exact equality in exact real arithmetic subsumes the 5e-5
tolerance. -/
theorem s2mf_magnitude_matches_golden
    (red : Option String) (power : Option ℝ) (norm : Option String)
    (hred : red = none ∨ red = some "rms" ∨ red = some "mean_abs"
      ∨ red = some "abs_mean")
    (hnorm : norm = none ∨ norm = some "mean" ∨ norm = some "mean_var")
    {B C F N : ℕ} (X : Fin B → Fin C → Fin F → Fin N → ℂ) :
    S2MF.magFeature red power norm X (fun _ => N) = S2MF.magGolden red power norm X := by
  have hfil : (Finset.univ.filter fun n : Fin N => (n : ℕ) < N)
      = (Finset.univ : Finset (Fin N)) := by
    ext n
    simp [n.isLt]
  rcases power with _ | p <;> rcases hred with rfl | rfl | rfl | rfl <;>
      rcases hnorm with rfl | rfl | rfl <;>
    simp only [S2MF.magFeature, S2MF.magGolden, S2MF.magnitude, S2MF.applyPower,
      S2MF.applyNorm, S2MF.meanCF, hfil]

/-- Witness for C3 at a concrete configuration (`rms` reduction, power 2,
`mean_var` normalization) and the concrete zero spectrogram. -/
theorem s2mf_magnitude_matches_golden_witness :
    ((some "rms" : Option String) = none ∨ (some "rms" : Option String) = some "rms"
      ∨ (some "rms" : Option String) = some "mean_abs"
      ∨ (some "rms" : Option String) = some "abs_mean")
    ∧ ((some "mean_var" : Option String) = none
      ∨ (some "mean_var" : Option String) = some "mean"
      ∨ (some "mean_var" : Option String) = some "mean_var")
    ∧ S2MF.magFeature (some "rms") (some 2) (some "mean_var") S2MF.exX (fun _ => 1)
        = S2MF.magGolden (some "rms") (some 2) (some "mean_var") S2MF.exX :=
  ⟨Or.inr (Or.inl rfl), Or.inr (Or.inr rfl),
   s2mf_magnitude_matches_golden (some "rms") (some 2) (some "mean_var")
     (Or.inr (Or.inl rfl)) (Or.inr (Or.inr rfl)) S2MF.exX⟩

namespace SSLMask

/-- Modelled from the spec: construction-time validation of
`SSLPretrainWithMaskedPatch` — `patch_size` must be positive and
`mask_fraction` must lie in [0, 1]; otherwise construction fails with an
invalid-configuration error. -/
def make (patch_size : ℤ) (mask_fraction : ℚ) : Except String (ℤ × ℚ) :=
  if patch_size ≤ 0 then .error "patch_size must be positive"
  else if mask_fraction < 0 ∨ 1 < mask_fraction then
    .error "mask_fraction must be in range"
  else .ok (patch_size, mask_fraction)

/-- Modelled from the spec: the number of patches drawn for a sequence of
valid length `len`, chosen so that the zeroed fraction of the valid frames
approaches `mask_fraction`. -/
def numPatches (patch_size : ℕ) (mask_fraction : ℚ) (len : ℕ) : ℕ :=
  (⌊(len : ℚ) * mask_fraction / patch_size⌋).toNat

/-- Whether frame `n` of batch element `b` falls inside one of the randomly
placed patches; the explicit generator `gen` supplies the raw draw for each
(batch element, patch index), reduced modulo the valid length to a start
frame. -/
def maskedFrame (patch_size : ℕ) (mask_fraction : ℚ) (gen : ℕ → ℕ → ℕ)
    (len : ℕ) (b n : ℕ) : Prop :=
  ∃ i ∈ Finset.range (numPatches patch_size mask_fraction len),
    gen b i % len ≤ n ∧ n < gen b i % len + patch_size

instance (patch_size : ℕ) (mask_fraction : ℚ) (gen : ℕ → ℕ → ℕ)
    (len : ℕ) (b n : ℕ) :
    Decidable (maskedFrame patch_size mask_fraction gen len b n) :=
  Finset.decidableExistsAndFinset

/-- Modelled from the spec: the forward call of the patch-masking augmenter.
Only active in training mode, where it zeroes the spectro-temporal patches
selected from the explicitly passed generator; in evaluation mode it is the
identity on the input spectrogram. -/
def forward {α : Type} [Zero α] (training : Bool) (patch_size : ℕ)
    (mask_fraction : ℚ) (gen : ℕ → ℕ → ℕ) {B Ch F N : ℕ}
    (x : Fin B → Fin Ch → Fin F → Fin N → α) (len : Fin B → ℕ) :
    Fin B → Fin Ch → Fin F → Fin N → α :=
  if training then
    fun b c f n =>
      if maskedFrame patch_size mask_fraction gen (len b) (b : ℕ) (n : ℕ) then 0
      else x b c f n
  else x

end SSLMask

/-- C6: the patch-masking augmenter applies masking only in training mode;
in evaluation mode it is the identity, so its output equals its input
exactly for every input spectrogram, length, configuration, and random
generator. -/
theorem ssl_patch_masking_eval_identity {α : Type} [Zero α] (patch_size : ℕ)
    (mask_fraction : ℚ) (gen : ℕ → ℕ → ℕ) {B Ch F N : ℕ}
    (x : Fin B → Fin Ch → Fin F → Fin N → α) (len : Fin B → ℕ) :
    SSLMask.forward false patch_size mask_fraction gen x len = x := rfl

/-- A batched 4-axis tensor with explicit dimensions (batch, channel,
subband, frame) and ℕ-indexed data; entries outside the dimensions are
junk that no operation exposes.  Used for the components whose contract is
about output shapes, so that shape preservation is a statement about
computed dimension fields rather than about types. -/
structure T4 (α : Type) where
  nb : ℕ
  nc : ℕ
  nf : ℕ
  nt : ℕ
  data : ℕ → ℕ → ℕ → ℕ → α

namespace MaskEstim

variable {K : Type} [Field K] [StarRing K]

/-- Modelled from the spec: one processing block of the flexible-channel
mask estimator — a per-channel transform over the subband axis combined
with a cross-channel average broadcast back to every channel (the
transform-average-concatenate topology, with the concatenation-projection
folded into a sum of the two linear images).  Dimensions are unchanged. -/
def blockOp (W : ℕ → ℕ → K) (x : T4 K) : T4 K :=
  ⟨x.nb, x.nc, x.nf, x.nt, fun b c f t =>
    (∑ g ∈ Finset.range x.nf, W f g * x.data b c g t)
      + (∑ c' ∈ Finset.range x.nc, x.data b c' f t) / (x.nc : K)⟩

/-- Modelled from the spec: the channel-reduction step, collapsing the
channel axis by average pooling into a single-channel representation. -/
def channelReduce (x : T4 K) : T4 K :=
  ⟨x.nb, 1, x.nf, x.nt, fun b _ f t =>
    (∑ c' ∈ Finset.range x.nc, x.data b c' f t) / (x.nc : K)⟩

/-- Modelled from the spec: the output stage producing `num_outputs` masks
over (subband, frame) from the reduced representation. -/
def outputLayer (num_outputs : ℕ) (V : ℕ → ℕ → ℕ → K) (x : T4 K) : T4 K :=
  ⟨x.nb, num_outputs, x.nf, x.nt, fun b o f t =>
    ∑ g ∈ Finset.range x.nf, V o f g * x.data b 0 g t⟩

/-- Modelled from the spec: `MaskEstimatorFlexChannels.forward` (module
source not in the snapshot).  A stack of `num_blocks` blocks with the
channel reduction inserted at the configured block index (`-1` is the
"last" sentinel position), followed by the output stage; the valid length
is passed through unchanged. -/
def flexForward (num_outputs num_blocks : ℕ) (red_pos : ℤ)
    (Ws V : ℕ → ℕ → ℕ → K) (x : T4 K) (len : ℕ → ℕ) : T4 K × (ℕ → ℕ) :=
  let y := (List.range num_blocks).foldl
    (fun a i => blockOp (Ws i) (if (i : ℤ) = red_pos then channelReduce a else a)) x
  let z := if red_pos = -1 then channelReduce y else y
  (outputLayer num_outputs V z, len)

/-- Modelled from the spec: `MaskEstimatorGSS.forward` (module source not in
the snapshot).  For each source, the channel-marginalized power statistics
of the mixture conditioned on the frames where the source is active; the
mask is the activity-gated likelihood-ratio-style score normalized across
sources.  The channel axis is marginalized into the statistics, so the
output has `num_outputs` on the channel axis. -/
def gssForward (num_outputs : ℕ) (act : ℕ → ℕ → ℕ → Bool) (x : T4 K) : T4 K :=
  ⟨x.nb, num_outputs, x.nf, x.nt, fun b o f t =>
    let srcPow : ℕ → K := fun q =>
      (∑ u ∈ Finset.range x.nt,
          if act b q u then
            (∑ c ∈ Finset.range x.nc, x.data b c f u * star (x.data b c f u))
              / (x.nc : K)
          else 0)
        / (∑ u ∈ Finset.range x.nt, if act b q u then (1 : K) else 0)
    let score : ℕ → K := fun q => (if act b q t then (1 : K) else 0) * srcPow q
    score o / (∑ q ∈ Finset.range num_outputs, score q)⟩

/-- The block pipeline of the flexible-channel estimator preserves the
batch, subband, and frame dimensions, whatever the channel reduction
does. -/
lemma flex_pipeline_dims (Ws : ℕ → ℕ → ℕ → K) (red_pos : ℤ)
    (l : List ℕ) (acc : T4 K) :
    (l.foldl (fun a i => blockOp (Ws i)
        (if (i : ℤ) = red_pos then channelReduce a else a)) acc).nb = acc.nb
    ∧ (l.foldl (fun a i => blockOp (Ws i)
        (if (i : ℤ) = red_pos then channelReduce a else a)) acc).nf = acc.nf
    ∧ (l.foldl (fun a i => blockOp (Ws i)
        (if (i : ℤ) = red_pos then channelReduce a else a)) acc).nt = acc.nt := by
  induction l generalizing acc with
  | nil => exact ⟨rfl, rfl, rfl⟩
  | cons i tl ih =>
    rw [List.foldl_cons]
    obtain ⟨h1, h2, h3⟩ :=
      ih (blockOp (Ws i) (if (i : ℤ) = red_pos then channelReduce acc else acc))
    refine ⟨?_, ?_, ?_⟩
    · rw [h1]
      by_cases h : (i : ℤ) = red_pos <;> simp [h, blockOp, channelReduce]
    · rw [h2]
      by_cases h : (i : ℤ) = red_pos <;> simp [h, blockOp, channelReduce]
    · rw [h3]
      by_cases h : (i : ℤ) = red_pos <;> simp [h, blockOp, channelReduce]

end MaskEstim

/-- C7: both mask estimators produce a mask of shape (batch, num_outputs,
num_subbands, num_frames) independently of the input channel count, and
the flexible-channel estimator returns the input length unchanged. -/
theorem mask_estimators_output_shape {K : Type} [Field K] [StarRing K]
    (num_outputs num_blocks : ℕ) (red_pos : ℤ) (Ws V : ℕ → ℕ → ℕ → K)
    (x : T4 K) (len : ℕ → ℕ) (act : ℕ → ℕ → ℕ → Bool) (y : T4 K) :
    ((MaskEstim.flexForward num_outputs num_blocks red_pos Ws V x len).1.nb = x.nb
      ∧ (MaskEstim.flexForward num_outputs num_blocks red_pos Ws V x len).1.nc
          = num_outputs
      ∧ (MaskEstim.flexForward num_outputs num_blocks red_pos Ws V x len).1.nf = x.nf
      ∧ (MaskEstim.flexForward num_outputs num_blocks red_pos Ws V x len).1.nt = x.nt)
    ∧ (MaskEstim.flexForward num_outputs num_blocks red_pos Ws V x len).2 = len
    ∧ ((MaskEstim.gssForward num_outputs act y).nb = y.nb
      ∧ (MaskEstim.gssForward num_outputs act y).nc = num_outputs
      ∧ (MaskEstim.gssForward num_outputs act y).nf = y.nf
      ∧ (MaskEstim.gssForward num_outputs act y).nt = y.nt) := by
  obtain ⟨h1, h2, h3⟩ :=
    MaskEstim.flex_pipeline_dims Ws red_pos (List.range num_blocks) x
  refine ⟨⟨?_, rfl, ?_, ?_⟩, rfl, rfl, rfl, rfl, rfl⟩
  · show (if red_pos = -1 then MaskEstim.channelReduce _ else _).nb = x.nb
    by_cases h : red_pos = -1
    · rw [if_pos h]
      exact h1
    · rw [if_neg h]
      exact h1
  · show (if red_pos = -1 then MaskEstim.channelReduce _ else _).nf = x.nf
    by_cases h : red_pos = -1
    · rw [if_pos h]
      exact h2
    · rw [if_neg h]
      exact h2
  · show (if red_pos = -1 then MaskEstim.channelReduce _ else _).nt = x.nt
    by_cases h : red_pos = -1
    · rw [if_pos h]
      exact h3
    · rw [if_neg h]
      exact h3

namespace Derev

variable {K : Type} [Field K] [StarRing K] [DecidableEq K]

/-- Modelled from the spec: the delayed channel history of a batched tensor,
tap `l` of frame `t` being the value at frame `t - D - l`, zero-padded
before the start of the sequence. -/
def tilde (L D : ℕ) (x : T4 K) : ℕ → ℕ → ℕ → ℕ → ℕ → K :=
  fun b c f t l => if D + l ≤ t ∧ l < L then x.data b c f (t - D - l) else 0

/-- Modelled from the spec: the inverse-power weight recomputed from the
current residual, gated by the supplied mask and averaged over channels. -/
def weight (mask : ℕ → ℕ → ℕ → ℕ → K) (x : T4 K) : ℕ → ℕ → ℕ → K :=
  fun b f t =>
    ((∑ c ∈ Finset.range x.nc,
        mask b c f t * (x.data b c f t * star (x.data b c f t))) / (x.nc : K))⁻¹

/-- The weighted correlation matrix of the delayed histories, flattened over
(channel, tap), per (batch, subband). -/
def Qm (L D : ℕ) (mask : ℕ → ℕ → ℕ → ℕ → K) (x : T4 K) (b f : ℕ) :
    Matrix (Fin (x.nc * L)) (Fin (x.nc * L)) K :=
  Matrix.of fun i j =>
    ∑ t ∈ Finset.range x.nt,
      star (tilde L D x b ((i : ℕ) / L) f t ((i : ℕ) % L)) * weight mask x b f t
        * tilde L D x b ((j : ℕ) / L) f t ((j : ℕ) % L)

/-- The weighted cross-correlation of the delayed histories with the current
residual, per (batch, subband). -/
def Rm (L D : ℕ) (mask : ℕ → ℕ → ℕ → ℕ → K) (x : T4 K) (b f : ℕ) :
    Matrix (Fin (x.nc * L)) (Fin x.nc) K :=
  Matrix.of fun i c =>
    ∑ t ∈ Finset.range x.nt,
      star (tilde L D x b ((i : ℕ) / L) f t ((i : ℕ) % L)) * weight mask x b f t
        * x.data b (c : ℕ) f t

/-- Modelled from the spec: one WPE iteration — recompute the weight from
the current residual, estimate the filter by solving the regularized
correlation system (a singular system yields the zero filter, i.e. the
identity no-op fallback the spec allows), and subtract the predicted
reverberant component.  The dimensions are those of the input. -/
def wpeStep (L D : ℕ) (mask : ℕ → ℕ → ℕ → ℕ → K) (x : T4 K) : T4 K :=
  ⟨x.nb, x.nc, x.nf, x.nt, fun b c f t =>
    x.data b c f t -
      if h : c < x.nc then
        ∑ i : Fin (x.nc * L),
          tilde L D x b ((i : ℕ) / L) f t ((i : ℕ) % L)
            * WPE.solveLin (Qm L D mask x b f) (Rm L D mask x b f) i ⟨c, h⟩
      else 0⟩

/-- Modelled from the spec: `MaskBasedDereverbWPE.forward` (module source not
in the snapshot) — a fixed number of WPE iterations, with the valid length
passed through unchanged. -/
def forward (L D iters : ℕ) (mask : ℕ → ℕ → ℕ → ℕ → K) (x : T4 K)
    (len : ℕ → ℕ) : T4 K × (ℕ → ℕ) :=
  ((wpeStep L D mask)^[iters] x, len)

/-- Every WPE iteration preserves all four dimensions. -/
lemma iterate_dims (L D : ℕ) (mask : ℕ → ℕ → ℕ → ℕ → K) (k : ℕ) (x : T4 K) :
    ((wpeStep L D mask)^[k] x).nb = x.nb
    ∧ ((wpeStep L D mask)^[k] x).nc = x.nc
    ∧ ((wpeStep L D mask)^[k] x).nf = x.nf
    ∧ ((wpeStep L D mask)^[k] x).nt = x.nt := by
  induction k with
  | zero => exact ⟨rfl, rfl, rfl, rfl⟩
  | succ n ih =>
    rw [Function.iterate_succ_apply']
    exact ⟨ih.1, ih.2.1, ih.2.2.1, ih.2.2.2⟩

end Derev

/-- C4: the mask-based WPE dereverberation controller returns an output
whose (batch, channel, subband, frame) shape equals the input shape, and a
length tensor exactly equal to the input length tensor (passed through,
not recomputed), for every input, length, and mask. -/
theorem dereverb_preserves_shape_and_length {K : Type} [Field K] [StarRing K]
    [DecidableEq K] (L D iters : ℕ) (mask : ℕ → ℕ → ℕ → ℕ → K) (x : T4 K)
    (len : ℕ → ℕ) :
    ((Derev.forward L D iters mask x len).1.nb = x.nb
      ∧ (Derev.forward L D iters mask x len).1.nc = x.nc
      ∧ (Derev.forward L D iters mask x len).1.nf = x.nf
      ∧ (Derev.forward L D iters mask x len).1.nt = x.nt)
    ∧ (Derev.forward L D iters mask x len).2 = len :=
  ⟨Derev.iterate_dims L D mask iters x, rfl⟩
